import Mathlib

/-!
A verification development for metasip's `Project.py`: the version-aware API
model, the merge engine (`HeaderDirectory._mergeCode`), signature computation
(`Argument.signature`, `Method.signature`, `Access.sigAccess`, `_expandType`),
version-range formatting (`Project.versionRange`), SIP conditional emission
(`Code.sip`) and module generation (`Project.generateModule`).

Python strings are modelled as Lean `String`, with the handful of Python
string primitives the source uses (`str.split()`, `str.replace`, `in`,
`int(...)`, `"sep".join`) re-implemented structurally so that all definitions
are executable by the kernel.  Machine-level details (file handles, the GUI,
the global `project` pointer) are made explicit parameters: the current
generation marker `str(project.generation)` becomes a `gen : String`
parameter, and the dirty-flag side channel `IDirty(project).dirty` becomes an
explicit boolean component of the result.
-/

/-- The concrete Python class of an API element.  `_mergeCode` compares
these with `type(dsi) is type(ssi)` and special-cases `ManualCode`
(sticky) and `Class`/`Namespace` (recursive merge). -/
inductive Kind where
  | classK
  | namespaceK
  | manualCode
  | functionK
  | methodK
  | constructorK
  | destructorK
  | enumK
  | enumValueK
  | variableK
  | typedefK
  | opaqueClassK
  | operatorFunctionK
  | operatorMethodK
  | operatorCastK
  deriving DecidableEq

/-- An API element (a `Code` subclass instance from `Project.py`).
`sig` is the value its `signature()` method returns: in the source,
`signature()` reads only kind-specific scalar fields (never `sgen`, `egen`
or `content`), so the merge engine sees it as a fixed string attached to
the element.  `payload` stands for the remaining kind-specific scalar
fields (e.g. a `ManualCode`'s `precis` and `body`) that merge never
touches as a block. -/
inductive Elem where
  | mk (kind : Kind) (sig : String) (annos status sgen egen platforms features : String)
       (payload : List String) (content : List Elem)

/-- The concrete class of the element. -/
def Elem.kind : Elem → Kind
  | .mk k _ _ _ _ _ _ _ _ _ => k

/-- The value of the element's `signature()` method. -/
def Elem.sig : Elem → String
  | .mk _ s _ _ _ _ _ _ _ _ => s

/-- The `annos` attribute. -/
def Elem.annos : Elem → String
  | .mk _ _ a _ _ _ _ _ _ _ => a

/-- The `status` attribute (empty = present, non-empty = suppressed). -/
def Elem.status : Elem → String
  | .mk _ _ _ st _ _ _ _ _ _ => st

/-- The `sgen` attribute (start generation, `''` = beginning of time). -/
def Elem.sgen : Elem → String
  | .mk _ _ _ _ s _ _ _ _ _ => s

/-- The `egen` attribute (end generation, `''` = still current). -/
def Elem.egen : Elem → String
  | .mk _ _ _ _ _ e _ _ _ _ => e

/-- The `platforms` attribute (space-separated list). -/
def Elem.platforms : Elem → String
  | .mk _ _ _ _ _ _ p _ _ _ => p

/-- The `features` attribute (space-separated list). -/
def Elem.features : Elem → String
  | .mk _ _ _ _ _ _ _ f _ _ => f

/-- The remaining kind-specific scalar fields. -/
def Elem.payload : Elem → List String
  | .mk _ _ _ _ _ _ _ _ p _ => p

/-- The `content` attribute (child elements). -/
def Elem.content : Elem → List Elem
  | .mk _ _ _ _ _ _ _ _ _ c => c

/-- `dsi.egen = str(project.generation)`: retire the element. -/
def Elem.setEgen (g : String) : Elem → Elem
  | .mk k s a st sg _ p f pay c => .mk k s a st sg g p f pay c

/-- `ssi.sgen = str(project.generation)`: stamp a new element. -/
def Elem.setSgen (g : String) : Elem → Elem
  | .mk k s a st _ eg p f pay c => .mk k s a st g eg p f pay c

/-- Replace the element's `content` list (in-place child merge). -/
def Elem.setContent (c : List Elem) : Elem → Elem
  | .mk k s a st sg eg p f pay _ => .mk k s a st sg eg p f pay c

/-- `Code.isCurrent`: `self.egen == ''`. -/
def Elem.isCurrent (e : Elem) : Bool :=
  e.egen == ""

/-- The merge engine's match test on a candidate `ssi` for an existing
`dsi`: `type(dsi) is type(ssi) and dsi.signature() == ssi.signature()`. -/
def sigMatch (d s : Elem) : Bool :=
  decide (d.kind = s.kind) && decide (d.sig = s.sig)

/-- The `for ssi in ssc: ... break / else: ssi = None` scan followed by
`ssc.remove(ssi)`: find the first list element satisfying `p` and return
it together with the list with that occurrence removed. -/
def removeFirst (p : Elem → Bool) : List Elem → Option (Elem × List Elem)
  | [] => none
  | x :: xs =>
    if p x then some (x, xs)
    else
      match removeFirst p xs with
      | none => none
      | some (y, ys) => some (y, x :: ys)

mutual

/-- One iteration of `_mergeCode`'s outer loop body for existing child `d`
against the (current) freshly parsed list `ssc`: skip non-current
children, skip `ManualCode`, otherwise consume the first matching parsed
item (recursing into `Class`/`Namespace` children) or retire `d`. -/
def mergeStep (gen : String) (d : Elem) (ssc : List Elem) : Elem × List Elem :=
  if d.egen ≠ "" then (d, ssc)
  else if d.kind = Kind.manualCode then (d, ssc)
  else
    match removeFirst (sigMatch d) ssc with
    | none => (d.setEgen gen, ssc)
    | some (ssi, ssc1) =>
      (if d.kind = Kind.classK ∨ d.kind = Kind.namespaceK then
         d.setContent (mergeCode gen d.content ssi.content)
       else d, ssc1)
termination_by (sizeOf d, 0)
decreasing_by
  refine Prod.Lex.left _ _ ?_
  have hlt : sizeOf d.content < sizeOf d := by
    cases d with
    | mk k s a st sg eg p f pay c =>
      simp only [Elem.content, Elem.mk.sizeOf_spec]
      omega
  omega

/-- `_mergeCode`'s outer loop over the existing children, threading the
shrinking freshly parsed list through; returns the processed children
and the unconsumed parsed items. -/
def mergeLoop (gen : String) (dsc ssc : List Elem) : List Elem × List Elem :=
  match dsc with
  | [] => ([], ssc)
  | d :: rest =>
    let s := mergeStep gen d ssc
    let r := mergeLoop gen rest s.2
    (s.1 :: r.1, r.2)
termination_by (sizeOf dsc, 0)
decreasing_by
  all_goals simp_wf
  all_goals exact Prod.Lex.left _ _ (by omega)

/-- `HeaderDirectory._mergeCode(dsc, ssc)`, as the new value of
`dsc.content`: process every existing child, then stamp every leftover
parsed item with `sgen = gen` and append it, in order. -/
def mergeCode (gen : String) (dsc ssc : List Elem) : List Elem :=
  let r := mergeLoop gen dsc ssc
  r.1 ++ r.2.map (Elem.setSgen gen)
termination_by (sizeOf dsc, 1)
decreasing_by
  exact Prod.Lex.right _ (by omega)

end

/-- A sequence of merge passes: each pass supplies its generation marker
and its freshly parsed list, applied by `_mergeCode` to the container. -/
def mergeMany (passes : List (String × List Elem)) (dsc : List Elem) : List Elem :=
  passes.foldl (fun acc p => mergeCode p.1 acc p.2) dsc

/-- `HeaderDirectory.addParsedHeaderFile(hf, phf)`: runs `_mergeCode` and
then unconditionally sets `IDirty(project).dirty = True` ("Assume
something has changed").  The previous dirty flag is a parameter and the
new one a result component; the code never reads the old value. -/
def addParsedHeaderFile (gen : String) (hfContent phf : List Elem) (_dirty : Bool) :
    List Elem × Bool :=
  (mergeCode gen hfContent phf, true)

/-- Python `str.split()` whitespace: space, tab, newline, carriage return,
vertical tab, form feed. -/
def pyIsSpace (c : Char) : Bool :=
  c == ' ' || c == '\t' || c == '\n' || c == '\r' || c == Char.ofNat 11 || c == Char.ofNat 12

/-- Helper for `pySplit`: accumulate the current (reversed) word while
scanning; empty words are dropped, as Python's no-argument `split` does. -/
def pySplitChars (cur : List Char) : List Char → List (List Char)
  | [] => if cur = [] then [] else [cur.reverse]
  | c :: rest =>
    if pyIsSpace c then
      if cur = [] then pySplitChars [] rest
      else cur.reverse :: pySplitChars [] rest
    else pySplitChars (c :: cur) rest

/-- Python `s.split()` (no argument): split on runs of whitespace,
dropping empty strings. -/
def pySplit (s : String) : List String :=
  (pySplitChars [] s.data).map List.asString

/-- Python `sub in s` on character lists. -/
def pyContainsChars (pat : List Char) : List Char → Bool
  | [] => decide (pat = [])
  | c :: rest => pat.isPrefixOf (c :: rest) || pyContainsChars pat rest

/-- Python `sub in s`. -/
def pyContains (s sub : String) : Bool :=
  pyContainsChars sub.data s.data

/-- Python `s.replace(pat, rep)` on character lists: replace non-overlapping
occurrences left to right.  The fuel argument (instantiated with the input
length, enough because every step consumes at least one character when the
pattern is non-empty, as it is at every use site in the source) keeps the
recursion structural so the kernel can evaluate it. -/
def pyReplaceChars (fuel : Nat) (pat rep : List Char) (l : List Char) : List Char :=
  match fuel, l with
  | 0, l => l
  | _ + 1, [] => []
  | fuel + 1, c :: rest =>
    if pat ≠ [] ∧ pat.isPrefixOf (c :: rest) then
      rep ++ pyReplaceChars fuel pat rep ((c :: rest).drop pat.length)
    else c :: pyReplaceChars fuel pat rep rest

/-- Python `s.replace(pat, rep)`. -/
def pyReplace (s pat rep : String) : String :=
  (pyReplaceChars s.data.length pat.data rep.data s.data).asString

/-- Python `"sep".join(parts)`. -/
def pyJoin (sep : String) : List String → String
  | [] => ""
  | [x] => x
  | x :: rest => x ++ sep ++ pyJoin sep rest

/-- Digit-sequence value accumulator for `pyInt?`. -/
def pyDigits (acc : Nat) : List Char → Option Nat
  | [] => some acc
  | c :: rest => if c.isDigit then pyDigits (acc * 10 + (c.toNat - 48)) rest else none

/-- Python `int(s)` for the plain decimal strings the project stores in
generation fields: an optional sign followed by at least one digit;
anything else raises (is `none`). -/
def pyInt? (s : String) : Option Int :=
  match s.data with
  | [] => none
  | '-' :: rest => if rest = [] then none else (pyDigits 0 rest).map (fun n => -(n : Int))
  | '+' :: rest => if rest = [] then none else (pyDigits 0 rest).map (fun n => (n : Int))
  | l => (pyDigits 0 l).map (fun n => (n : Int))

/-- Python list indexing `l[i]` with negative-index wrap-around; `none`
models an `IndexError`. -/
def pyIndex (l : List String) (i : Int) : Option String :=
  let j := if i < 0 then (l.length : Int) + i else i
  if j < 0 then none else l.get? j.toNat

/-- `Project.versionRange(sgen, egen)`: the version string for a range of
generations, using the project's ordered `versions` list; a 1-based stored
endpoint `n` reads the label `versions[int(n) - 1]`.  `none` models an
uncaught `ValueError`/`IndexError`. -/
def versionRange (versions : List String) (sgen egen : String) : Option String :=
  if sgen = "" then
    if egen = "" then some ""
    else do
      let n ← pyInt? egen
      let v ← pyIndex versions (n - 1)
      pure ("- " ++ v)
  else if egen = "" then do
    let n ← pyInt? sgen
    let v ← pyIndex versions (n - 1)
    pure (v ++ " -")
  else do
    let ns ← pyInt? sgen
    let vs ← pyIndex versions (ns - 1)
    let ne ← pyInt? egen
    let ve ← pyIndex versions (ne - 1)
    pure (vs ++ " - " ++ ve)

/-- `_expandType(typ, name)` with the default `ignore_namespaces=False`
(every call site relevant here uses the default): replace `"long int"`
with `"long"`, then either substitute the name for the embedded `"%s"`
(Python `typ % name`, modelled as replacing the occurrence) or append the
name, with no space after a trailing `&` or `*`. -/
def expandType (typ : String) (name : String) : String :=
  if typ = "" then ""
  else
    let typ2 := pyReplace typ "long int" "long"
    if pyContains typ2 "%s" then pyReplace typ2 "%s" name
    else
      if name = "" then typ2
      else if typ2.back = '&' ∨ typ2.back = '*' then typ2 ++ name
      else typ2 ++ " " ++ name

/-- The `Argument` element (`Project.py`): an argument of a callable. -/
structure Argument where
  type : String
  name : String
  unnamed : Bool
  default : String
  pytype : String
  annos : String

/-- `Argument.signature()`: the expanded type, plus `" = default"` when a
default value is present. -/
def Argument.signature (a : Argument) : String :=
  let s := expandType a.type ""
  if a.default ≠ "" then s ++ " = " ++ a.default else s

/-- `Access.sigAccess()`: the first word of the access string, with the Qt
specific part dropped (`"signals"` compares as `"protected"`, `"public"`
as `""`; an empty access stays `""`). -/
def sigAccess (access : String) : String :=
  let s := match pySplit access with
    | [] => ""
    | w :: _ => w
  if s = "signals" then "protected"
  else if s = "public" then ""
  else s

/-- The fields of a `Method` element that its `signature()` reads. -/
structure Method where
  name : String
  rtype : String
  args : List Argument
  virtual : Bool
  const : Bool
  static : Bool
  abstract : Bool
  access : String

/-- `Method.signature()`: qualifiers, expanded return type, name,
argument signatures, `const`/`= 0` markers and the comparison form of the
access. -/
def Method.signature (m : Method) : String :=
  (if m.virtual then "virtual " else "")
    ++ (if m.static then "static " else "")
    ++ expandType m.rtype "" ++ m.name
    ++ "(" ++ pyJoin ", " (m.args.map Argument.signature) ++ ")"
    ++ (if m.const then " const" else "")
    ++ (if m.abstract then " = 0" else "")
    ++ sigAccess m.access

/-- A `Method` carried as a merge element: concrete kind `Method`, with
`signature()` as its matching key. -/
def methodElem (m : Method) (sgen egen : String) : Elem :=
  .mk .methodK m.signature "" "" sgen egen "" "" [] []

/-- The conditional lines `Code.sip` opens around one non-suppressed child
`c` before calling `c.sip(...)`: generation range first, then the
platform disjunction, then the feature disjunction, each omitted when its
tag is empty.  `none` models a failure of `project.versionRange`. -/
def sipCondOpen (versions : List String) (c : Elem) : Option (List String) := do
  let vrange ← versionRange versions c.sgen c.egen
  pure
    ((if vrange ≠ "" then ["%If (" ++ vrange ++ ")"] else [])
      ++ (if c.platforms ≠ "" then ["%If (" ++ pyJoin " || " (pySplit c.platforms) ++ ")"] else [])
      ++ (if c.features ≠ "" then ["%If (" ++ pyJoin " || " (pySplit c.features) ++ ")"] else []))

/-- The closing `%End` lines `Code.sip` writes after the child's own
output, innermost (features) first. -/
def sipCondClose (versions : List String) (c : Elem) : Option (List String) := do
  let vrange ← versionRange versions c.sgen c.egen
  pure
    ((if c.features ≠ "" then ["%End"] else [])
      ++ (if c.platforms ≠ "" then ["%End"] else [])
      ++ (if vrange ≠ "" then ["%End"] else []))

/-- `Code.sip(f, hf, latest_sip)`: emit every child with an empty status,
wrapped in its conditionals; `body c` stands for the lines the child's own
(kind-specific) `sip` method writes.  Output is the list of emitted
lines. -/
def codeSip (versions : List String) (body : Elem → List String) :
    List Elem → Option (List String)
  | [] => some []
  | c :: rest => do
    let here ←
      if c.status ≠ "" then pure []
      else do
        let opens ← sipCondOpen versions c
        let closes ← sipCondClose versions c
        pure (opens ++ body c ++ closes)
    let there ← codeSip versions body rest
    pure (here ++ there)

/-- The per-header loop of `Project.generateModule`: for each header file
create its SIP output file (`_createSIPFile`, `none`/`False` on failure),
abort on the first failure keeping the files already written, otherwise
record the written file.  `create` says whether creating a given output
file succeeds; `written` accumulates the files written so far. -/
def genLoop (create : String → Bool) (written : List String) :
    List String → Bool × List String
  | [] => (true, written)
  | h :: rest =>
    if create h then genLoop create (written ++ [h]) rest
    else (false, written)

/-- `Project.generateModule(ui, mod, od)`: generate one SIP file per
header file of the module and then the root module file; return `False`
as soon as an output file cannot be created, leaving the files already
written in place, and `True` only when every file was created.  The
result is (success, files written in order). -/
def generateModule (create : String → Bool) (hnames : List String) (rootname : String) :
    Bool × List String :=
  let r := genLoop create [] hnames
  if r.1 then
    if create rootname then (true, r.2 ++ [rootname])
    else (false, r.2)
  else r

/-- The freshly parsed tree a reparse of unchanged source produces for a
container: one parsed item per current non-`ManualCode` child, with the
same concrete kind and `signature()` but empty generation fields, its
children reparsed recursively.  This is the "unchanged parsed tree"
scenario of the merge-idempotence property. -/
def reparse : List Elem → List Elem
  | [] => []
  | .mk k s a st _sg eg p f pay c :: rest =>
    if eg = "" ∧ k ≠ Kind.manualCode then
      Elem.mk k s a st "" "" p f pay (reparse c) :: reparse rest
    else reparse rest

/-- A parsed list that matches a container exactly: every current
non-`ManualCode` child has its counterpart (same concrete kind, equal
signature, recursively matching children for `Class`/`Namespace`) in
child order, and there are no extra parsed items.  This is the
hypothesis of the merge-idempotence property. -/
inductive FreshFor : List Elem → List Elem → Prop where
  | nil : FreshFor [] []
  | skip {d : Elem} {rest ssc : List Elem} :
      d.egen ≠ "" ∨ d.kind = Kind.manualCode →
      FreshFor rest ssc → FreshFor (d :: rest) ssc
  | matched {d s : Elem} {rest ssc : List Elem} :
      d.egen = "" → d.kind ≠ Kind.manualCode →
      d.kind = s.kind → d.sig = s.sig →
      (d.kind = Kind.classK ∨ d.kind = Kind.namespaceK → FreshFor d.content s.content) →
      FreshFor rest ssc → FreshFor (d :: rest) (s :: ssc)

@[simp] theorem setEgen_kind (g : String) (e : Elem) : (e.setEgen g).kind = e.kind := by
  cases e; rfl

@[simp] theorem setEgen_sig (g : String) (e : Elem) : (e.setEgen g).sig = e.sig := by
  cases e; rfl

@[simp] theorem setEgen_sgen (g : String) (e : Elem) : (e.setEgen g).sgen = e.sgen := by
  cases e; rfl

@[simp] theorem setEgen_egen (g : String) (e : Elem) : (e.setEgen g).egen = g := by
  cases e; rfl

@[simp] theorem setEgen_content (g : String) (e : Elem) : (e.setEgen g).content = e.content := by
  cases e; rfl

@[simp] theorem setSgen_kind (g : String) (e : Elem) : (e.setSgen g).kind = e.kind := by
  cases e; rfl

@[simp] theorem setSgen_sig (g : String) (e : Elem) : (e.setSgen g).sig = e.sig := by
  cases e; rfl

@[simp] theorem setSgen_sgen (g : String) (e : Elem) : (e.setSgen g).sgen = g := by
  cases e; rfl

@[simp] theorem setSgen_egen (g : String) (e : Elem) : (e.setSgen g).egen = e.egen := by
  cases e; rfl

@[simp] theorem setContent_kind (c : List Elem) (e : Elem) : (e.setContent c).kind = e.kind := by
  cases e; rfl

@[simp] theorem setContent_sig (c : List Elem) (e : Elem) : (e.setContent c).sig = e.sig := by
  cases e; rfl

@[simp] theorem setContent_sgen (c : List Elem) (e : Elem) : (e.setContent c).sgen = e.sgen := by
  cases e; rfl

@[simp] theorem setContent_egen (c : List Elem) (e : Elem) : (e.setContent c).egen = e.egen := by
  cases e; rfl

@[simp] theorem setContent_content (c : List Elem) (e : Elem) : (e.setContent c).content = c := by
  cases e; rfl

theorem setContent_self (e : Elem) : e.setContent e.content = e := by
  cases e; rfl

theorem mergeLoop_nil (gen : String) (ssc : List Elem) : mergeLoop gen [] ssc = ([], ssc) := by
  rw [mergeLoop]

theorem mergeLoop_cons (gen : String) (d : Elem) (rest ssc : List Elem) :
    mergeLoop gen (d :: rest) ssc =
      ((mergeStep gen d ssc).1 :: (mergeLoop gen rest (mergeStep gen d ssc).2).1,
       (mergeLoop gen rest (mergeStep gen d ssc).2).2) := by
  rw [mergeLoop]

theorem mergeCode_eq (gen : String) (dsc ssc : List Elem) :
    mergeCode gen dsc ssc =
      (mergeLoop gen dsc ssc).1 ++ ((mergeLoop gen dsc ssc).2).map (Elem.setSgen gen) := by
  rw [mergeCode]

theorem mergeStep_not_current (gen : String) (d : Elem) (ssc : List Elem) (h : d.egen ≠ "") :
    mergeStep gen d ssc = (d, ssc) := by
  rw [mergeStep]
  simp [h]

theorem mergeStep_manual (gen : String) (d : Elem) (ssc : List Elem)
    (h : d.kind = Kind.manualCode) : mergeStep gen d ssc = (d, ssc) := by
  rw [mergeStep]
  by_cases hc : d.egen = "" <;> simp [h, hc]

theorem removeFirst_eq_none (p : Elem → Bool) (l : List Elem) :
    removeFirst p l = none ↔ l.any p = false := by
  induction l with
  | nil => simp [removeFirst]
  | cons x xs ih =>
    by_cases hx : p x
    · simp [removeFirst, hx]
    · rw [removeFirst]
      simp only [hx, if_false, Bool.false_eq_true]
      cases hr : removeFirst p xs with
      | none => simpa [hr, hx] using ih
      | some r => simp [hr, hx, ← ih]

theorem mergeStep_no_match (gen : String) (d : Elem) (ssc : List Elem)
    (hc : d.egen = "") (hm : d.kind ≠ Kind.manualCode) (h : ssc.any (sigMatch d) = false) :
    mergeStep gen d ssc = (d.setEgen gen, ssc) := by
  rw [mergeStep]
  rw [(removeFirst_eq_none (sigMatch d) ssc).2 h]
  simp [hc, hm]

theorem mergeStep_matched (gen : String) (d : Elem) (ssc : List Elem) (ssi : Elem)
    (ssc1 : List Elem) (hc : d.egen = "") (hm : d.kind ≠ Kind.manualCode)
    (h : removeFirst (sigMatch d) ssc = some (ssi, ssc1)) :
    mergeStep gen d ssc =
      (if d.kind = Kind.classK ∨ d.kind = Kind.namespaceK then
         d.setContent (mergeCode gen d.content ssi.content)
       else d, ssc1) := by
  rw [mergeStep]
  simp [hc, hm, h]

theorem mergeStep_fst_kind (gen : String) (d : Elem) (ssc : List Elem) :
    (mergeStep gen d ssc).1.kind = d.kind := by
  rw [mergeStep]
  by_cases hc : d.egen = ""
  · by_cases hm : d.kind = Kind.manualCode
    · simp [hc, hm]
    · cases hr : removeFirst (sigMatch d) ssc with
      | none => simp [hc, hm, hr]
      | some r =>
        by_cases hk : d.kind = Kind.classK ∨ d.kind = Kind.namespaceK <;>
          simp [hc, hm, hr, hk]
  · simp [hc]

theorem mergeStep_fst_sig (gen : String) (d : Elem) (ssc : List Elem) :
    (mergeStep gen d ssc).1.sig = d.sig := by
  rw [mergeStep]
  by_cases hc : d.egen = ""
  · by_cases hm : d.kind = Kind.manualCode
    · simp [hc, hm]
    · cases hr : removeFirst (sigMatch d) ssc with
      | none => simp [hc, hm, hr]
      | some r =>
        by_cases hk : d.kind = Kind.classK ∨ d.kind = Kind.namespaceK <;>
          simp [hc, hm, hr, hk]
  · simp [hc]

theorem mergeStep_fst_sgen (gen : String) (d : Elem) (ssc : List Elem) :
    (mergeStep gen d ssc).1.sgen = d.sgen := by
  rw [mergeStep]
  by_cases hc : d.egen = ""
  · by_cases hm : d.kind = Kind.manualCode
    · simp [hc, hm]
    · cases hr : removeFirst (sigMatch d) ssc with
      | none => simp [hc, hm, hr]
      | some r =>
        by_cases hk : d.kind = Kind.classK ∨ d.kind = Kind.namespaceK <;>
          simp [hc, hm, hr, hk]
  · simp [hc]

theorem mergeLoop_fst_length (gen : String) (dsc ssc : List Elem) :
    (mergeLoop gen dsc ssc).1.length = dsc.length := by
  induction dsc generalizing ssc with
  | nil => simp [mergeLoop_nil]
  | cons d rest ih => simp [mergeLoop_cons, ih]

theorem mergeLoop_append (gen : String) (xs ys ssc : List Elem) :
    mergeLoop gen (xs ++ ys) ssc =
      ((mergeLoop gen xs ssc).1 ++ (mergeLoop gen ys (mergeLoop gen xs ssc).2).1,
       (mergeLoop gen ys (mergeLoop gen xs ssc).2).2) := by
  induction xs generalizing ssc with
  | nil => simp [mergeLoop_nil]
  | cons d rest ih => simp [mergeLoop_cons, ih]

theorem removeFirst_sublist (p : Elem → Bool) (l : List Elem) (y : Elem) (ys : List Elem)
    (h : removeFirst p l = some (y, ys)) : ys.Sublist l := by
  induction l generalizing y ys with
  | nil => simp [removeFirst] at h
  | cons x xs ih =>
    rw [removeFirst] at h
    by_cases hx : p x
    · simp only [hx, if_true, Option.some.injEq, Prod.mk.injEq] at h
      obtain ⟨h1, h2⟩ := h
      subst h2
      exact List.sublist_cons_self x xs
    · simp only [hx, Bool.false_eq_true, if_false] at h
      cases hr : removeFirst p xs with
      | none => rw [hr] at h; cases h
      | some r =>
        obtain ⟨y2, ys2⟩ := r
        rw [hr] at h
        simp only [Option.some.injEq, Prod.mk.injEq] at h
        obtain ⟨h1, h2⟩ := h
        subst h2
        exact List.Sublist.cons₂ x (ih y2 ys2 hr)

theorem mergeStep_snd_sublist (gen : String) (d : Elem) (ssc : List Elem) :
    ((mergeStep gen d ssc).2).Sublist ssc := by
  rw [mergeStep]
  by_cases hc : d.egen = ""
  · by_cases hm : d.kind = Kind.manualCode
    · simp [hc, hm]
    · cases hr : removeFirst (sigMatch d) ssc with
      | none => simp [hc, hm, hr]
      | some r =>
        cases r with
        | mk y ys =>
          simp only [hc, hm, hr, ne_eq, not_true_eq_false, if_false, ite_not]
          exact removeFirst_sublist _ _ _ _ hr
  · simp [hc]

theorem mergeLoop_snd_sublist (gen : String) (dsc ssc : List Elem) :
    ((mergeLoop gen dsc ssc).2).Sublist ssc := by
  induction dsc generalizing ssc with
  | nil => simp [mergeLoop_nil]
  | cons d rest ih =>
    rw [mergeLoop_cons]
    exact (ih (mergeStep gen d ssc).2).trans (mergeStep_snd_sublist gen d ssc)

theorem removeFirst_mem (p : Elem → Bool) (l : List Elem) (y x : Elem) (ys : List Elem)
    (h : removeFirst p l = some (y, ys)) (hx : x ∈ l) (hpx : p x = false) : x ∈ ys := by
  induction l generalizing y ys with
  | nil => simp at hx
  | cons a as ih =>
    rw [removeFirst] at h
    by_cases ha : p a
    · simp only [ha, if_true, Option.some.injEq, Prod.mk.injEq] at h
      obtain ⟨h1, h2⟩ := h
      subst h2
      rcases List.mem_cons.1 hx with rfl | hmem
      · rw [ha] at hpx; cases hpx
      · exact hmem
    · simp only [ha, Bool.false_eq_true, if_false] at h
      cases hr : removeFirst p as with
      | none => rw [hr] at h; cases h
      | some r =>
        obtain ⟨y2, ys2⟩ := r
        rw [hr] at h
        simp only [Option.some.injEq, Prod.mk.injEq] at h
        obtain ⟨h1, h2⟩ := h
        subst h2
        rcases List.mem_cons.1 hx with rfl | hmem
        · exact List.mem_cons_self x ys2
        · exact List.mem_cons_of_mem a (ih y2 ys2 hr hmem)

theorem mergeStep_snd_mem (gen : String) (d : Elem) (ssc : List Elem) (x : Elem)
    (hx : x ∈ ssc) (hpx : sigMatch d x = false) : x ∈ (mergeStep gen d ssc).2 := by
  rw [mergeStep]
  by_cases hc : d.egen = ""
  · by_cases hm : d.kind = Kind.manualCode
    · simpa [hc, hm] using hx
    · cases hr : removeFirst (sigMatch d) ssc with
      | none => simpa [hc, hm, hr] using hx
      | some r =>
        obtain ⟨y, ys⟩ := r
        simp only [hc, hm, hr, ne_eq, not_true_eq_false, if_false, ite_not]
        simpa using removeFirst_mem (sigMatch d) ssc y x ys hr hx hpx
  · simpa [hc] using hx

theorem mergeLoop_snd_mem (gen : String) (dsc ssc : List Elem) (x : Elem)
    (hx : x ∈ ssc)
    (hno : ∀ d ∈ dsc, d.egen = "" → d.kind ≠ Kind.manualCode → sigMatch d x = false) :
    x ∈ (mergeLoop gen dsc ssc).2 := by
  induction dsc generalizing ssc with
  | nil => simpa [mergeLoop_nil] using hx
  | cons d rest ih =>
    rw [mergeLoop_cons]
    refine ih (mergeStep gen d ssc).2 ?_ (fun e he => hno e (List.mem_cons_of_mem d he))
    by_cases hc : d.egen = ""
    · by_cases hm : d.kind = Kind.manualCode
      · rw [mergeStep_manual gen d ssc hm]; exact hx
      · exact mergeStep_snd_mem gen d ssc x hx (hno d (List.mem_cons_self d rest) hc hm)
    · rw [mergeStep_not_current gen d ssc hc]; exact hx

theorem removeFirst_of_any (p : Elem → Bool) (l : List Elem) (h : l.any p = true) :
    ∃ y ys, removeFirst p l = some (y, ys) := by
  cases hr : removeFirst p l with
  | none => rw [(removeFirst_eq_none p l).1 hr] at h; cases h
  | some r =>
    obtain ⟨y, ys⟩ := r
    exact ⟨y, ys, rfl⟩

theorem mergeStep_fst_egen_matched (gen : String) (d : Elem) (ssc : List Elem)
    (hc : d.egen = "") (hm : d.kind ≠ Kind.manualCode) (h : ssc.any (sigMatch d) = true) :
    (mergeStep gen d ssc).1.egen = d.egen := by
  obtain ⟨y, ys, hr⟩ := removeFirst_of_any (sigMatch d) ssc h
  rw [mergeStep_matched gen d ssc y ys hc hm hr]
  by_cases hk : d.kind = Kind.classK ∨ d.kind = Kind.namespaceK <;> simp [hk]

theorem mergeLoop_fst_get (gen : String) (dsc ssc : List Elem) (i : Nat) (d : Elem)
    (hd : dsc[i]? = some d) :
    (mergeLoop gen dsc ssc).1[i]? =
      some (mergeStep gen d (mergeLoop gen (dsc.take i) ssc).2).1 := by
  induction dsc generalizing i ssc with
  | nil => simp at hd
  | cons d0 rest ih =>
    cases i with
    | zero =>
      simp only [List.getElem?_cons_zero, Option.some.injEq] at hd
      subst hd
      simp [mergeLoop_cons, mergeLoop_nil]
    | succ j =>
      simp only [List.getElem?_cons_succ] at hd
      rw [List.take_succ_cons, mergeLoop_cons, mergeLoop_cons]
      simpa using ih (mergeStep gen d0 ssc).2 j hd

theorem mergeCode_get_lt (gen : String) (dsc ssc : List Elem) (i : Nat) (hi : i < dsc.length) :
    (mergeCode gen dsc ssc)[i]? = (mergeLoop gen dsc ssc).1[i]? := by
  rw [mergeCode_eq, List.getElem?_append]
  rw [mergeLoop_fst_length gen dsc ssc]
  simp [hi]

/-- C1: In every merge of freshly parsed children into an existing
container, an existing child that is current and not `ManualCode` and for
which the scan of the freshly parsed items (those not yet consumed by the
preceding siblings) finds no item of the same concrete kind with an equal
signature, is retired: its `egen` is set to the current generation marker
and it stays at its position in the container's child list (it is not
deleted).  An existing child for which the scan does find such a match
keeps both its start and end generations unchanged. -/
theorem mergeCode_retires_missing_keeps_matched (gen : String) (dsc ssc : List Elem)
    (i : Nat) (d : Elem) (hd : dsc[i]? = some d) (hcur : d.egen = "")
    (hman : d.kind ≠ Kind.manualCode) :
    ((mergeLoop gen (dsc.take i) ssc).2.any (sigMatch d) = false →
        (mergeCode gen dsc ssc)[i]? = some (d.setEgen gen)) ∧
    ((mergeLoop gen (dsc.take i) ssc).2.any (sigMatch d) = true →
        ∃ d2, (mergeCode gen dsc ssc)[i]? = some d2 ∧ d2.sgen = d.sgen ∧
          d2.egen = d.egen ∧ d2.kind = d.kind ∧ d2.sig = d.sig) := by
  have hi : i < dsc.length := (List.getElem?_eq_some.1 hd).1
  constructor
  · intro hno
    rw [mergeCode_get_lt gen dsc ssc i hi, mergeLoop_fst_get gen dsc ssc i d hd,
      mergeStep_no_match gen d _ hcur hman hno]
  · intro hyes
    refine ⟨(mergeStep gen d (mergeLoop gen (dsc.take i) ssc).2).1, ?_,
      mergeStep_fst_sgen gen d _, mergeStep_fst_egen_matched gen d _ hcur hman hyes,
      mergeStep_fst_kind gen d _, mergeStep_fst_sig gen d _⟩
    rw [mergeCode_get_lt gen dsc ssc i hi, mergeLoop_fst_get gen dsc ssc i d hd]

theorem mergeCode_retires_missing_keeps_matched_witness :
    (mergeCode "3"
        [Elem.mk .methodK "void f()" "" "" "" "" "" "" [] [],
         Elem.mk .methodK "void g()" "" "" "" "" "" "" [] []]
        [Elem.mk .methodK "void g()" "" "" "" "" "" "" [] []])[0]? =
      some ((Elem.mk .methodK "void f()" "" "" "" "" "" "" [] []).setEgen "3") :=
  (mergeCode_retires_missing_keeps_matched "3"
      [Elem.mk .methodK "void f()" "" "" "" "" "" "" [] [],
       Elem.mk .methodK "void g()" "" "" "" "" "" "" [] []]
      [Elem.mk .methodK "void g()" "" "" "" "" "" "" [] []]
      0 (Elem.mk .methodK "void f()" "" "" "" "" "" "" [] []) rfl rfl (by decide)).1
    (by simp [mergeLoop_nil, sigMatch, Elem.kind, Elem.sig])

theorem mergeCode_manual_get (gen : String) (dsc ssc : List Elem) (i : Nat) (d : Elem)
    (hd : dsc[i]? = some d) (hman : d.kind = Kind.manualCode) :
    (mergeCode gen dsc ssc)[i]? = some d := by
  have hi : i < dsc.length := (List.getElem?_eq_some.1 hd).1
  rw [mergeCode_get_lt gen dsc ssc i hi, mergeLoop_fst_get gen dsc ssc i d hd,
    mergeStep_manual gen d _ hman]

theorem mergeMany_manual_get (i : Nat) (d : Elem) (hman : d.kind = Kind.manualCode) :
    ∀ (passes : List (String × List Elem)) (dsc : List Elem), dsc[i]? = some d →
      (mergeMany passes dsc)[i]? = some d := by
  intro passes
  induction passes with
  | nil => intro dsc hd; simpa [mergeMany] using hd
  | cons p rest ih =>
    intro dsc hd
    simp only [mergeMany, List.foldl_cons]
    exact ih (mergeCode p.1 dsc p.2) (mergeCode_manual_get p.1 dsc p.2 i d hd hman)

/-- C2: A `ManualCode` child of a container is never touched by the merge
engine: across any sequence of merge passes with any parser input it is
still the very same element at the very same position among its siblings
(so none of its fields changed and it was not replaced, relocated or
deleted), and processing it never consumes a freshly parsed item
(`mergeStep` returns the child and the parsed list unchanged, i.e. it is
never matched). -/
theorem manualCode_sticky (passes : List (String × List Elem)) (dsc : List Elem) (i : Nat)
    (d : Elem) (hd : dsc[i]? = some d) (hman : d.kind = Kind.manualCode) :
    (mergeMany passes dsc)[i]? = some d ∧
    ∀ gen ssc, mergeStep gen d ssc = (d, ssc) :=
  ⟨mergeMany_manual_get i d hman passes dsc hd,
   fun gen ssc => mergeStep_manual gen d ssc hman⟩

theorem manualCode_sticky_witness :
    (mergeMany [("2", [Elem.mk .manualCode "precis" "" "" "" "" "" "" ["body"] []]),
        ("3", [])]
      [Elem.mk .manualCode "precis" "" "" "" "" "" "" ["body"] []])[0]? =
      some (Elem.mk .manualCode "precis" "" "" "" "" "" "" ["body"] []) :=
  (manualCode_sticky
      [("2", [Elem.mk .manualCode "precis" "" "" "" "" "" "" ["body"] []]), ("3", [])]
      [Elem.mk .manualCode "precis" "" "" "" "" "" "" ["body"] []]
      0 (Elem.mk .manualCode "precis" "" "" "" "" "" "" ["body"] []) rfl rfl).1

theorem mergeCode_retired_get (gen : String) (dsc ssc : List Elem) (i : Nat) (d : Elem)
    (hd : dsc[i]? = some d) (hret : d.egen ≠ "") :
    (mergeCode gen dsc ssc)[i]? = some d := by
  have hi : i < dsc.length := (List.getElem?_eq_some.1 hd).1
  rw [mergeCode_get_lt gen dsc ssc i hi, mergeLoop_fst_get gen dsc ssc i d hd,
    mergeStep_not_current gen d _ hret]

/-- C3: A non-current (retired) existing child is frozen by merge: it is
left, every field unchanged, at its position, and its processing step
consumes no freshly parsed item; moreover a freshly parsed item whose
kind and signature match only retired children is not absorbed into any
of them but is appended (stamped with the current generation as its start
generation) like any other unmatched parsed item, so retirement is never
undone by a merge. -/
theorem retired_frozen (gen : String) (dsc ssc : List Elem) :
    (∀ (i : Nat) (d : Elem), dsc[i]? = some d → d.egen ≠ "" →
        (mergeCode gen dsc ssc)[i]? = some d ∧ ∀ g u, mergeStep g d u = (d, u)) ∧
    (∀ ssi ∈ ssc, (∀ d ∈ dsc, sigMatch d ssi = true → d.egen ≠ "") →
        Elem.setSgen gen ssi ∈ mergeCode gen dsc ssc) := by
  constructor
  · intro i d hd hret
    exact ⟨mergeCode_retired_get gen dsc ssc i d hd hret,
      fun g u => mergeStep_not_current g d u hret⟩
  · intro ssi hmem honly
    have hsurvive : ssi ∈ (mergeLoop gen dsc ssc).2 := by
      refine mergeLoop_snd_mem gen dsc ssc ssi hmem ?_
      intro d hdmem hcur _
      by_cases hsig : sigMatch d ssi = true
      · exact absurd hcur (honly d hdmem hsig)
      · simpa using hsig
    rw [mergeCode_eq]
    exact List.mem_append_right _ (List.mem_map_of_mem (Elem.setSgen gen) hsurvive)

theorem retired_frozen_witness :
    (mergeCode "2" [Elem.mk .methodK "void f()" "" "" "" "1" "" "" [] []]
        [Elem.mk .methodK "void f()" "" "" "" "" "" "" [] []])[0]? =
      some (Elem.mk .methodK "void f()" "" "" "" "1" "" "" [] []) ∧
    Elem.setSgen "2" (Elem.mk .methodK "void f()" "" "" "" "" "" "" [] []) ∈
      mergeCode "2" [Elem.mk .methodK "void f()" "" "" "" "1" "" "" [] []]
        [Elem.mk .methodK "void f()" "" "" "" "" "" "" [] []] :=
  ⟨((retired_frozen "2" [Elem.mk .methodK "void f()" "" "" "" "1" "" "" [] []]
        [Elem.mk .methodK "void f()" "" "" "" "" "" "" [] []]).1
      0 (Elem.mk .methodK "void f()" "" "" "" "1" "" "" [] []) rfl (by decide)).1,
   (retired_frozen "2" [Elem.mk .methodK "void f()" "" "" "" "1" "" "" [] []]
        [Elem.mk .methodK "void f()" "" "" "" "" "" "" [] []]).2
      (Elem.mk .methodK "void f()" "" "" "" "" "" "" [] []) (by simp)
      (by
        intro d hdmem hsig
        rcases List.mem_singleton.1 hdmem with rfl
        decide)⟩

/-- C4: After all existing children are processed, `_mergeCode` appends
exactly the unconsumed freshly parsed items, each with its start
generation set to the current generation marker, to the end of the
container's child list (after the slot-for-slot processed existing
children); the unconsumed items form a sublist of the parsed input, so
the appended items appear in their original parse order. -/
theorem mergeCode_appends_new (gen : String) (dsc ssc : List Elem) :
    ((mergeLoop gen dsc ssc).2).Sublist ssc ∧
    mergeCode gen dsc ssc =
      (mergeLoop gen dsc ssc).1 ++ ((mergeLoop gen dsc ssc).2).map (Elem.setSgen gen) ∧
    (mergeLoop gen dsc ssc).1.length = dsc.length ∧
    ∀ e ∈ ((mergeLoop gen dsc ssc).2).map (Elem.setSgen gen), e.sgen = gen := by
  refine ⟨mergeLoop_snd_sublist gen dsc ssc, mergeCode_eq gen dsc ssc,
    mergeLoop_fst_length gen dsc ssc, ?_⟩
  intro e he
  obtain ⟨x, hx, rfl⟩ := List.mem_map.1 he
  simp

theorem mergeCode_appends_new_witness :
    (Elem.setSgen "2" (Elem.mk .functionK "int h()" "" "" "" "" "" "" [] [])).sgen = "2" :=
  (mergeCode_appends_new "2" [] [Elem.mk .functionK "int h()" "" "" "" "" "" "" [] []]).2.2.2
    (Elem.setSgen "2" (Elem.mk .functionK "int h()" "" "" "" "" "" "" [] []))
    (by simp [mergeLoop_nil])

theorem freshFor_mergeLoop (gen : String) (dsc ssc : List Elem) (h : FreshFor dsc ssc) :
    mergeLoop gen dsc ssc = (dsc, []) := by
  induction h with
  | nil => exact mergeLoop_nil gen []
  | @skip d rest ssc2 hskip hrest ih =>
    rw [mergeLoop_cons]
    have hstep : mergeStep gen d ssc2 = (d, ssc2) := by
      rcases hskip with hret | hman
      · exact mergeStep_not_current gen d ssc2 hret
      · exact mergeStep_manual gen d ssc2 hman
    rw [hstep]
    simp [ih]
  | @matched d s rest ssc2 hc hm hk hs hinner hrest ihinner ihrest =>
    rw [mergeLoop_cons]
    have hsm : sigMatch d s = true := by simp [sigMatch, hk, hs]
    have hrf : removeFirst (sigMatch d) (s :: ssc2) = some (s, ssc2) := by
      rw [removeFirst]
      simp [hsm]
    have hstep : mergeStep gen d (s :: ssc2) = (d, ssc2) := by
      rw [mergeStep_matched gen d (s :: ssc2) s ssc2 hc hm hrf]
      by_cases hcls : d.kind = Kind.classK ∨ d.kind = Kind.namespaceK
      · rw [if_pos hcls, mergeCode_eq, ihinner hcls]
        simp [setContent_self]
      · rw [if_neg hcls]
    rw [hstep]
    simp [ihrest]

theorem freshFor_mergeCode (gen : String) (dsc ssc : List Elem) (h : FreshFor dsc ssc) :
    mergeCode gen dsc ssc = dsc := by
  rw [mergeCode_eq, freshFor_mergeLoop gen dsc ssc h]
  simp

theorem freshFor_reparse : ∀ dsc : List Elem, FreshFor dsc (reparse dsc)
  | [] => by
    rw [reparse]
    exact FreshFor.nil
  | (Elem.mk k s a st sg eg p f pay c) :: rest => by
    rw [reparse]
    by_cases hcur : eg = "" ∧ k ≠ Kind.manualCode
    · rw [if_pos hcur]
      refine FreshFor.matched hcur.1 hcur.2 rfl rfl
        (fun _ => freshFor_reparse c) (freshFor_reparse rest)
    · rw [if_neg hcur]
      refine FreshFor.skip ?_ (freshFor_reparse rest)
      show (Elem.mk k s a st sg eg p f pay c).egen ≠ "" ∨
        (Elem.mk k s a st sg eg p f pay c).kind = Kind.manualCode
      by_cases heg : eg = ""
      · right
        simp only [Elem.kind]
        by_cases hk : k = Kind.manualCode
        · exact hk
        · exact absurd ⟨heg, hk⟩ hcur
      · left
        simpa [Elem.egen] using heg
termination_by dsc => sizeOf dsc
decreasing_by
  all_goals simp_wf
  all_goals omega

/-- C5 (counterexample to the dirty-flag half of merge idempotence): for a
concrete already-merged container and its exactly matching reparse, the
merge itself changes nothing (the container is returned verbatim), yet
`addParsedHeaderFile` still flips a clean (`false`) dirty flag to `true`
("Assume something has changed"), so a dirty-flag transition does occur. -/
theorem merge_idempotence_dirty_counterexample :
    mergeCode "2"
        [Elem.mk .classK "class A" "" "" "1" "" "" "" []
            [Elem.mk .methodK "void f()" "" "" "1" "" "" "" [] []],
         Elem.mk .methodK "void old()" "" "" "1" "1" "" "" [] []]
        (reparse
          [Elem.mk .classK "class A" "" "" "1" "" "" "" []
              [Elem.mk .methodK "void f()" "" "" "1" "" "" "" [] []],
           Elem.mk .methodK "void old()" "" "" "1" "1" "" "" [] []]) =
      [Elem.mk .classK "class A" "" "" "1" "" "" "" []
          [Elem.mk .methodK "void f()" "" "" "1" "" "" "" [] []],
       Elem.mk .methodK "void old()" "" "" "1" "1" "" "" [] []] ∧
    (addParsedHeaderFile "2"
        [Elem.mk .classK "class A" "" "" "1" "" "" "" []
            [Elem.mk .methodK "void f()" "" "" "1" "" "" "" [] []],
         Elem.mk .methodK "void old()" "" "" "1" "1" "" "" [] []]
        (reparse
          [Elem.mk .classK "class A" "" "" "1" "" "" "" []
              [Elem.mk .methodK "void f()" "" "" "1" "" "" "" [] []],
           Elem.mk .methodK "void old()" "" "" "1" "1" "" "" [] []])
        false).2 ≠ false :=
  ⟨freshFor_mergeCode "2" _ _ (freshFor_reparse _), by decide⟩

/-- C5 (amended): merging a parsed tree in which every current
non-`ManualCode` child has a same-kind equal-signature counterpart (and
which has no extra items) leaves the container exactly unchanged — in
particular no element's start or end generation changes and nothing is
appended — but `addParsedHeaderFile` nevertheless sets the project dirty
flag to `true` unconditionally, whatever its previous value. -/
theorem merge_idempotent_but_always_dirty (gen : String) (dsc ssc : List Elem)
    (dirty : Bool) (h : FreshFor dsc ssc) :
    (addParsedHeaderFile gen dsc ssc dirty).1 = dsc ∧
    (addParsedHeaderFile gen dsc ssc dirty).2 = true :=
  ⟨freshFor_mergeCode gen dsc ssc h, rfl⟩

theorem merge_idempotent_but_always_dirty_witness :
    (addParsedHeaderFile "3"
        [Elem.mk .namespaceK "namespace N" "" "" "" "" "" "" []
            [Elem.mk .functionK "int g()" "" "" "" "" "" "" [] []]]
        (reparse
          [Elem.mk .namespaceK "namespace N" "" "" "" "" "" "" []
              [Elem.mk .functionK "int g()" "" "" "" "" "" "" [] []]])
        true).1 =
      [Elem.mk .namespaceK "namespace N" "" "" "" "" "" "" []
          [Elem.mk .functionK "int g()" "" "" "" "" "" "" [] []]] ∧
    (addParsedHeaderFile "3"
        [Elem.mk .namespaceK "namespace N" "" "" "" "" "" "" []
            [Elem.mk .functionK "int g()" "" "" "" "" "" "" [] []]]
        (reparse
          [Elem.mk .namespaceK "namespace N" "" "" "" "" "" "" []
              [Elem.mk .functionK "int g()" "" "" "" "" "" "" [] []]])
        true).2 = true :=
  merge_idempotent_but_always_dirty "3"
    [Elem.mk .namespaceK "namespace N" "" "" "" "" "" "" []
        [Elem.mk .functionK "int g()" "" "" "" "" "" "" [] []]]
    (reparse
      [Elem.mk .namespaceK "namespace N" "" "" "" "" "" "" []
          [Elem.mk .functionK "int g()" "" "" "" "" "" "" [] []]])
    true (freshFor_reparse _)

theorem string_append_left_cancel {a b c : String} (h : a ++ b = a ++ c) : b = c := by
  have hd := congrArg String.data h
  simp only [String.data_append] at hd
  exact String.ext (List.append_cancel_left hd)

theorem string_append_ne_empty {a b : String} (h : a ≠ "") : a ++ b ≠ "" := by
  intro he
  have hlen := congrArg String.length he
  rw [String.length_append] at hlen
  have ha : a.length ≠ 0 := fun h0 => h (String.ext (List.length_eq_zero.1 h0))
  have hz : ("" : String).length = 0 := rfl
  omega

theorem string_ne_append_right {a b : String} (h : b ≠ "") : a ≠ a ++ b := by
  intro he
  have hlen := congrArg String.length he
  rw [String.length_append] at hlen
  have hb : b.length ≠ 0 := by
    intro h0
    exact h (String.ext (List.length_eq_zero.1 h0))
  omega

/-- C6 (counterexample): two `Argument` elements whose types differ only
in whitespace (`"const QString &name"` versus `"const QString&   name"`)
and whose default values are equal nevertheless get different
`signature()` strings: `_expandType` copies the type verbatim (apart from
the `"long int"` → `"long"` rewrite and `%s` substitution) and performs
no whitespace normalization. -/
theorem argument_signature_whitespace_counterexample :
    (Argument.mk "const QString &name" "" true "" "" "").default =
      (Argument.mk "const QString&   name" "" true "" "" "").default ∧
    (Argument.mk "const QString &name" "" true "" "" "").signature ≠
      (Argument.mk "const QString&   name" "" true "" "" "").signature :=
  ⟨rfl, by decide⟩

/-- C6 (amended): `Argument.signature()` is determined by the argument's
type and default value — two arguments with equal type strings and equal
defaults have equal signatures — and it is sensitive to the default
value: two arguments with equal type strings but different defaults have
different signatures.  (It is not whitespace-insensitive: types differing
only in whitespace generally give different signatures.) -/
theorem argument_signature_sensitivity :
    (∀ a b : Argument, a.type = b.type → a.default = b.default →
        a.signature = b.signature) ∧
    (∀ a b : Argument, a.type = b.type → a.default ≠ b.default →
        a.signature ≠ b.signature) := by
  constructor
  · intro a b ht hd
    simp only [Argument.signature, ht, hd]
  · intro a b ht hd heq
    simp only [Argument.signature, ht] at heq
    by_cases ha : a.default = ""
    · by_cases hb : b.default = ""
      · exact hd (ha.trans hb.symm)
      · rw [if_neg (fun hne => hne ha), if_pos hb, String.append_assoc] at heq
        exact string_ne_append_right (string_append_ne_empty (by decide)) heq
    · by_cases hb : b.default = ""
      · rw [if_pos ha, if_neg (fun hne => hne hb), String.append_assoc] at heq
        exact string_ne_append_right (string_append_ne_empty (by decide)) heq.symm
      · rw [if_pos ha, if_pos hb] at heq
        exact hd (string_append_left_cancel heq)

theorem argument_signature_sensitivity_witness :
    (Argument.mk "int" "" true "0" "" "").signature ≠
      (Argument.mk "int" "" true "1" "" "").signature :=
  argument_signature_sensitivity.2 (Argument.mk "int" "" true "0" "" "")
    (Argument.mk "int" "" true "1" "" "") rfl (by decide)

/-- C7: With generation list `["1.0", "2.0", "3.0"]`, `versionRange`
renders every combination of stored endpoints as the spec's off-by-one
table dictates: both endpoints absent gives `""`; only an end endpoint
`n` gives `"- "` followed by the label at 0-based index `n - 1`; only a
start endpoint gives that label followed by `" -"`; both give
`"label(start-1) - label(end-1)"`. -/
theorem versionRange_table :
    versionRange ["1.0", "2.0", "3.0"] "" "" = some "" ∧
    versionRange ["1.0", "2.0", "3.0"] "" "2" = some "- 2.0" ∧
    versionRange ["1.0", "2.0", "3.0"] "1" "" = some "1.0 -" ∧
    versionRange ["1.0", "2.0", "3.0"] "2" "3" = some "2.0 - 3.0" ∧
    versionRange ["1.0", "2.0", "3.0"] "" "1" = some "- 1.0" ∧
    versionRange ["1.0", "2.0", "3.0"] "" "3" = some "- 3.0" ∧
    versionRange ["1.0", "2.0", "3.0"] "2" "" = some "2.0 -" ∧
    versionRange ["1.0", "2.0", "3.0"] "3" "" = some "3.0 -" ∧
    versionRange ["1.0", "2.0", "3.0"] "1" "2" = some "1.0 - 2.0" ∧
    versionRange ["1.0", "2.0", "3.0"] "1" "3" = some "1.0 - 3.0" ∧
    versionRange ["1.0", "2.0", "3.0"] "2" "2" = some "2.0 - 2.0" ∧
    versionRange ["1.0", "2.0", "3.0"] "3" "3" = some "3.0 - 3.0" := by
  decide

/-- C10: `sigAccess` erases a leading `"public"` (the signature is as if
the access were empty) and turns a leading `"signals"` into
`"protected"`; consequently two otherwise identical methods, one under a
`"public"` access and one with empty access — or one under `"signals"`
and one under `"protected"` — have equal `signature()` strings, and the
merge engine's matcher therefore identifies them as the same
declaration. -/
theorem sigAccess_normalization :
    (∀ a : String, (pySplit a).head? = some "public" →
        sigAccess a = "" ∧ sigAccess a = sigAccess "") ∧
    (∀ a : String, (pySplit a).head? = some "signals" →
        sigAccess a = "protected" ∧ sigAccess a = sigAccess "protected") ∧
    (∀ (n rt : String) (args : List Argument) (v c st ab : Bool) (a1 : String),
        (pySplit a1).head? = some "public" →
        (Method.mk n rt args v c st ab a1).signature =
          (Method.mk n rt args v c st ab "").signature) ∧
    (∀ (n rt : String) (args : List Argument) (v c st ab : Bool) (a1 : String),
        (pySplit a1).head? = some "signals" →
        (Method.mk n rt args v c st ab a1).signature =
          (Method.mk n rt args v c st ab "protected").signature) ∧
    (∀ (m1 m2 : Method) (sgen egen : String), m1.signature = m2.signature →
        sigMatch (methodElem m1 sgen egen) (methodElem m2 "" "") = true) := by
  have hpub : ∀ a : String, (pySplit a).head? = some "public" → sigAccess a = "" := by
    intro a h
    cases hsp : pySplit a with
    | nil => rw [hsp] at h; cases h
    | cons w t =>
      rw [hsp] at h
      simp only [List.head?_cons, Option.some.injEq] at h
      subst h
      simp only [sigAccess, hsp]
      decide
  have hsig : ∀ a : String, (pySplit a).head? = some "signals" → sigAccess a = "protected" := by
    intro a h
    cases hsp : pySplit a with
    | nil => rw [hsp] at h; cases h
    | cons w t =>
      rw [hsp] at h
      simp only [List.head?_cons, Option.some.injEq] at h
      subst h
      simp only [sigAccess, hsp]
      decide
  refine ⟨fun a h => ⟨hpub a h, by rw [hpub a h]; decide⟩,
    fun a h => ⟨hsig a h, by rw [hsig a h]; decide⟩, ?_, ?_, ?_⟩
  · intro n rt args v c st ab a1 h
    simp only [Method.signature]
    rw [hpub a1 h, show sigAccess "" = "" from by decide]
  · intro n rt args v c st ab a1 h
    simp only [Method.signature]
    rw [hsig a1 h, show sigAccess "protected" = "protected" from by decide]
  · intro m1 m2 sgen egen h
    simp [sigMatch, methodElem, Elem.kind, Elem.sig, h]

theorem sigAccess_normalization_witness :
    (Method.mk "setName" "void" [Argument.mk "const QString &" "" true "" "" ""]
        false false false false "public slots").signature =
      (Method.mk "setName" "void" [Argument.mk "const QString &" "" true "" "" ""]
        false false false false "").signature :=
  sigAccess_normalization.2.2.1 "setName" "void"
    [Argument.mk "const QString &" "" true "" "" ""] false false false false
    "public slots" (by decide)

/-- C8: `Code.sip` wraps each non-suppressed child's text in nested
`%If`/`%End` pairs ordered generation-range outermost, then platform
disjunction, then feature disjunction innermost, omitting a pair when the
corresponding tag is empty: a child with a non-empty generation range,
two platforms and one feature yields exactly three nested pairs (the
platforms joined by `" || "` in one `%If`); dropping the platform tag,
the feature tag, or the generation range drops exactly the corresponding
pair while preserving the order of the others. -/
theorem code_sip_conditional_nesting :
    (∀ (versions : List String) (c : Elem) (body : Elem → List String) (v p1 p2 f1 : String),
        c.status = "" → versionRange versions c.sgen c.egen = some v → v ≠ "" →
        pySplit c.platforms = [p1, p2] → pySplit c.features = [f1] →
        codeSip versions body [c] =
          some (["%If (" ++ v ++ ")", "%If (" ++ p1 ++ " || " ++ p2 ++ ")",
                 "%If (" ++ f1 ++ ")"] ++ body c ++ ["%End", "%End", "%End"])) ∧
    (∀ (versions : List String) (c : Elem) (body : Elem → List String) (v f1 : String),
        c.status = "" → versionRange versions c.sgen c.egen = some v → v ≠ "" →
        c.platforms = "" → pySplit c.features = [f1] →
        codeSip versions body [c] =
          some (["%If (" ++ v ++ ")", "%If (" ++ f1 ++ ")"] ++ body c ++ ["%End", "%End"])) ∧
    (∀ (versions : List String) (c : Elem) (body : Elem → List String) (v p1 p2 : String),
        c.status = "" → versionRange versions c.sgen c.egen = some v → v ≠ "" →
        pySplit c.platforms = [p1, p2] → c.features = "" →
        codeSip versions body [c] =
          some (["%If (" ++ v ++ ")", "%If (" ++ p1 ++ " || " ++ p2 ++ ")"]
            ++ body c ++ ["%End", "%End"])) ∧
    (∀ (versions : List String) (c : Elem) (body : Elem → List String) (p1 p2 f1 : String),
        c.status = "" → versionRange versions c.sgen c.egen = some "" →
        pySplit c.platforms = [p1, p2] → pySplit c.features = [f1] →
        codeSip versions body [c] =
          some (["%If (" ++ p1 ++ " || " ++ p2 ++ ")", "%If (" ++ f1 ++ ")"]
            ++ body c ++ ["%End", "%End"])) := by
  have hplat : ∀ (c : Elem) (p1 p2 : String), pySplit c.platforms = [p1, p2] →
      c.platforms ≠ "" := by
    intro c p1 p2 hp hcon
    rw [hcon] at hp
    cases hp
  have hfeat : ∀ (c : Elem) (f1 : String), pySplit c.features = [f1] →
      c.features ≠ "" := by
    intro c f1 hf hcon
    rw [hcon] at hf
    cases hf
  refine ⟨?_, ?_, ?_, ?_⟩
  · intro versions c body v p1 p2 f1 hst hv hvne hp hf
    simp [codeSip, sipCondOpen, sipCondClose, hst, hv, hvne, hplat c p1 p2 hp,
      hfeat c f1 hf, hp, hf, pyJoin, String.append_assoc]
  · intro versions c body v f1 hst hv hvne hpe hf
    simp [codeSip, sipCondOpen, sipCondClose, hst, hv, hvne, hpe, hfeat c f1 hf, hf, pyJoin,
      String.append_assoc]
  · intro versions c body v p1 p2 hst hv hvne hp hfe
    simp [codeSip, sipCondOpen, sipCondClose, hst, hv, hvne, hplat c p1 p2 hp, hp, hfe, pyJoin,
      String.append_assoc]
  · intro versions c body p1 p2 f1 hst hv hp hf
    simp [codeSip, sipCondOpen, sipCondClose, hst, hv, hplat c p1 p2 hp,
      hfeat c f1 hf, hp, hf, pyJoin, String.append_assoc]

theorem code_sip_conditional_nesting_witness :
    codeSip ["1.0"] (fun _ => ["virtual void f();"])
        [Elem.mk .methodK "void f()" "" "" "1" "" "win mac" "qt" [] []] =
      some ["%If (1.0 -)", "%If (win || mac)", "%If (qt)", "virtual void f();",
            "%End", "%End", "%End"] :=
  code_sip_conditional_nesting.1 ["1.0"]
    (Elem.mk .methodK "void f()" "" "" "1" "" "win mac" "qt" [] [])
    (fun _ => ["virtual void f();"]) "1.0 -" "win" "mac" "qt"
    rfl (by decide) (by decide) (by decide) (by decide)

theorem genLoop_eq (create : String → Bool) :
    ∀ (hnames : List String) (w : List String),
      genLoop create w hnames = (hnames.all create, w ++ hnames.takeWhile create) := by
  intro hnames
  induction hnames with
  | nil => intro w; simp [genLoop]
  | cons h rest ih =>
    intro w
    by_cases hc : create h
    · simp [genLoop, hc, ih, List.takeWhile_cons]
    · simp [genLoop, hc, List.takeWhile_cons]

theorem takeWhile_of_all (create : String → Bool) :
    ∀ hnames : List String, hnames.all create = true → hnames.takeWhile create = hnames := by
  intro hnames
  induction hnames with
  | nil => intro _; rfl
  | cons h rest ih =>
    intro hall
    simp only [List.all_cons, Bool.and_eq_true] at hall
    simp [List.takeWhile_cons, hall.1, ih hall.2]

/-- C9: `generateModule` returns `False` exactly when creating some
per-header SIP file or the root module file fails, and the files written
before the first failure are left in place (no cleanup, no retry): the
written list is the longest prefix of header files whose creation
succeeds, plus the root file only on full success; when every creation
succeeds it writes all header files and the root module file and returns
`True`. -/
theorem generateModule_failure_semantics (create : String → Bool) (hnames : List String)
    (rootname : String) :
    (generateModule create hnames rootname).1 = (hnames.all create && create rootname) ∧
    (generateModule create hnames rootname).2 =
      hnames.takeWhile create ++
        (if hnames.all create && create rootname then [rootname] else []) ∧
    (hnames.all create = true → create rootname = true →
      generateModule create hnames rootname = (true, hnames ++ [rootname])) := by
  refine ⟨?_, ?_, ?_⟩
  · rw [generateModule, genLoop_eq create hnames []]
    by_cases hall : hnames.all create
    · by_cases hroot : create rootname <;> simp [hall, hroot]
    · simp [hall]
  · rw [generateModule, genLoop_eq create hnames []]
    by_cases hall : hnames.all create
    · by_cases hroot : create rootname <;> simp [hall, hroot]
    · simp [hall]
  · intro hall hroot
    rw [generateModule, genLoop_eq create hnames []]
    simp [hall, hroot, takeWhile_of_all create hnames hall]

theorem generateModule_failure_semantics_witness :
    ((generateModule (fun s => decide (s ≠ "locked")) ["a", "locked", "c"] "mod").1 = false ∧
      (generateModule (fun s => decide (s ≠ "locked")) ["a", "locked", "c"] "mod").2 = ["a"]) ∧
    generateModule (fun s => decide (s ≠ "locked")) ["a", "c"] "mod" =
      (true, ["a", "c", "mod"]) := by
  have h1 := generateModule_failure_semantics (fun s => decide (s ≠ "locked"))
    ["a", "locked", "c"] "mod"
  have h2 := generateModule_failure_semantics (fun s => decide (s ≠ "locked"))
    ["a", "c"] "mod"
  refine ⟨⟨?_, ?_⟩, ?_⟩
  · rw [h1.1]; decide
  · rw [h1.2.1]; decide
  · exact h2.2.2 (by decide) (by decide)
